import Mathlib

/-!
# A shallow embedding of the Go package `smap`

`smap.Smap[K, V]` wraps the standard library's `sync.Map`, whose cells hold
values of the interface type `any`.  The generic methods convert keys and
values to `any` on the way in and use type assertions on the way out, so the
embedding has three layers:

* Go's `any`, conversion to it and type assertion from it (`Any`, `GoType`);
* the sequential behaviour of `sync.Map` (`SyncMap`), with the unspecified
  iteration order of `sync.Map.Range` taken as a parameter (`IterOrder`);
* the five functions of `smap.go` (`New`, `Smap.Set`, `Smap.Get`, `Smap.Len`,
  `Smap.Range`), translated line by line.

Scope of the model.  Executions are sequential.  Key values are those on which
Go's `==` is a total equivalence, so that it coincides with equality of the
represented values: floating-point NaN keys and interface keys whose dynamic
type is not comparable are outside the model.  `Len` counts in `Nat`: the
number of entries of a map is far below the range of Go's `int`.
-/

namespace smap

/-! ## Go's `any` and type assertions -/

/-- Run-time panics of the Go runtime that the code of `smap.go` can raise. -/
inductive Panic where
  /-- A failed type assertion `x.(T)` written without the comma-ok form. -/
  | interfaceConversion
  deriving DecidableEq

deriving instance DecidableEq for Except

/-- A value of the interface type `any`: `none` is the nil interface value,
`some d` a non-nil one, `d` standing for its dynamic type and value. -/
abbrev Any (Dyn : Type) : Type := Option Dyn

/-- A Go type whose values are the terms of `T`, described by how it meets
`any`.  For a non-interface type `toAny` never gives nil.  For an interface
type exactly the nil value of the type converts to the nil `any`, and by the
language specification a type assertion on a nil interface value fails. -/
structure GoType (Dyn : Type) (T : Type) where
  /-- The zero value of the type, `*new(T)`. -/
  zero : T
  /-- The implicit conversion of a `T` to `any`. -/
  toAny : T → Any Dyn
  /-- The type assertion `x.(T)` in its comma-ok form: `none` when it fails. -/
  assert : Any Dyn → Option T
  /-- An assertion on the nil interface value fails. -/
  assert_nil : assert none = none
  /-- A non-nil `any` made from `t` asserts back to `t`. -/
  assert_toAny : ∀ t d, toAny t = some d → assert (some d) = some t
  /-- An assertion only succeeds with the value the `any` was made from. -/
  toAny_assert : ∀ d t, assert (some d) = some t → toAny t = some d
  /-- Only the zero value (the nil interface value) converts to the nil `any`. -/
  toAny_nil : ∀ t, toAny t = none → t = zero

/-- The type assertion `x.(T)` without the comma-ok form: it panics when the
assertion fails. -/
def GoType.mustAssert {Dyn T : Type} (G : GoType Dyn T) (x : Any Dyn) : Except Panic T :=
  match G.assert x with
  | some t => .ok t
  | none => .error .interfaceConversion

/-- A small universe of dynamically typed values, enough to instantiate the
development at `int`, `string` and `any`. -/
inductive Val where
  | int (n : Int)
  | str (s : String)
  deriving DecidableEq

/-- The Go type `int` (a non-interface type). -/
def goInt : GoType Val Int where
  zero := 0
  toAny n := some (.int n)
  assert x := match x with
    | some (.int n) => some n
    | _ => none
  assert_nil := rfl
  assert_toAny := by
    intro t d h
    cases h
    rfl
  toAny_assert := by
    intro d t h
    cases d with
    | int n => cases h; rfl
    | str s => cases h
  toAny_nil := by
    intro t h
    cases h

/-- The Go type `string` (a non-interface type). -/
def goString : GoType Val String where
  zero := ""
  toAny s := some (.str s)
  assert x := match x with
    | some (.str s) => some s
    | _ => none
  assert_nil := rfl
  assert_toAny := by
    intro t d h
    cases h
    rfl
  toAny_assert := by
    intro d t h
    cases d with
    | int n => cases h
    | str s => cases h; rfl
  toAny_nil := by
    intro t h
    cases h

/-- The Go interface type `any` itself: conversion to `any` is the identity,
every dynamic type implements it, and its zero value is nil. -/
def goAny : GoType Val (Any Val) where
  zero := none
  toAny x := x
  assert x := match x with
    | some d => some (some d)
    | none => none
  assert_nil := rfl
  assert_toAny := by
    intro t d h
    cases h
    rfl
  toAny_assert := by
    intro d t h
    cases h
    rfl
  toAny_nil := by
    intro t h
    exact h

/-! ## The standard library's `sync.Map`, sequentially -/

/-- The contents of a `sync.Map`: cells from `any` keys to `any` values, kept
in the order in which the keys were first stored. -/
structure SyncMap (Dyn : Type) where
  entries : List (Any Dyn × Any Dyn)

/-- The entry list after `Store(key, value)`: the cell of `key` is overwritten
when there is one, and a new cell is added otherwise. -/
def storeEntries {Dyn : Type} [DecidableEq Dyn] (key value : Any Dyn) :
    List (Any Dyn × Any Dyn) → List (Any Dyn × Any Dyn)
  | [] => [(key, value)]
  | e :: rest =>
    if e.1 = key then (key, value) :: rest else e :: storeEntries key value rest

/-- The method `sync.Map.Store`: sets the value for a key. -/
def SyncMap.Store {Dyn : Type} [DecidableEq Dyn] (m : SyncMap Dyn) (key value : Any Dyn) :
    SyncMap Dyn :=
  ⟨storeEntries key value m.entries⟩

/-- The method `sync.Map.Load`: the value stored for a key, or nil when there
is none, with a flag telling whether the key was found. -/
def SyncMap.Load {Dyn : Type} [DecidableEq Dyn] (m : SyncMap Dyn) (key : Any Dyn) :
    Any Dyn × Bool :=
  match m.entries.find? (fun e => decide (e.1 = key)) with
  | some e => (e.2, true)
  | none => (none, false)

/-- The order in which `sync.Map.Range` visits the cells.  The library leaves
it unspecified, so it is a parameter: any rearrangement of the cells. -/
structure IterOrder (Dyn : Type) where
  order : List (Any Dyn × Any Dyn) → List (Any Dyn × Any Dyn)
  perm : ∀ l, (order l).Perm l

/-- How a call of `Range` ended, with the state of the visitor at that time. -/
inductive RangeResult (σ : Type) where
  /-- The call returned normally. -/
  | completed (s : σ)
  /-- The call panicked. -/
  | panicked (e : Panic) (s : σ)
  deriving DecidableEq

/-- The state of the visitor when the call ended. -/
def RangeResult.state {σ : Type} : RangeResult σ → σ
  | .completed s => s
  | .panicked _ s => s

/-- The loop of `sync.Map.Range` over the cells in visiting order: the callback
is called on each cell in turn until it returns false.  The callback acts on a
state `σ` and may panic, which ends the loop. -/
def rangeLoop {Dyn σ : Type} (f : Any Dyn → Any Dyn → σ → Except Panic (Bool × σ)) :
    List (Any Dyn × Any Dyn) → σ → RangeResult σ
  | [], s => .completed s
  | e :: rest, s =>
    match f e.1 e.2 s with
    | .error p => .panicked p s
    | .ok (true, s1) => rangeLoop f rest s1
    | .ok (false, s1) => .completed s1

/-- The method `sync.Map.Range`: calls `f` sequentially for each key and value
present in the map; if `f` returns false, the iteration stops. -/
def SyncMap.Range {Dyn σ : Type} (o : IterOrder Dyn) (m : SyncMap Dyn)
    (f : Any Dyn → Any Dyn → σ → Except Panic (Bool × σ)) (s : σ) : RangeResult σ :=
  rangeLoop f (o.order m.entries) s

/-! ## `smap.go` -/

/-- The type `Smap[K, V]`: a struct embedding a `sync.Map`. -/
structure Smap (Dyn K V : Type) where
  Map : SyncMap Dyn

/-- The function `New`: a new, empty `Smap`. -/
def New {Dyn K V : Type} : Smap Dyn K V := ⟨⟨[]⟩⟩

section Methods

variable {Dyn K V σ : Type} [DecidableEq Dyn]

/-- The method `Set`: `m.Map.Store(key, value)`, the key and the value being
converted to `any`. -/
def Smap.Set (KT : GoType Dyn K) (VT : GoType Dyn V) (m : Smap Dyn K V) (key : K) (value : V) :
    Smap Dyn K V :=
  ⟨m.Map.Store (KT.toAny key) (VT.toAny value)⟩

/-- The method `Get`: loads the cell of `key` and, when it is there and its
value asserts to `V`, returns that value and true; otherwise `*new(V)` and
false. -/
def Smap.Get (KT : GoType Dyn K) (VT : GoType Dyn V) (m : Smap Dyn K V) (key : K) :
    Except Panic (V × Bool) :=
  match m.Map.Load (KT.toAny key) with
  | (v, true) =>
    match VT.assert v with
    | some v => .ok (v, true)
    | none => .ok (VT.zero, false)
  | (_, false) => .ok (VT.zero, false)

/-- The method `Len`: ranges over the embedded map, adding one to `n` for each
cell. -/
def Smap.Len (o : IterOrder Dyn) (m : Smap Dyn K V) : Except Panic Nat :=
  match m.Map.Range o (fun _ _ n => .ok (true, n + 1)) 0 with
  | .completed n => .ok n
  | .panicked p _ => .error p

/-- The function literal that `Range` hands to `sync.Map.Range`,
`func(key, value any) bool { return f(key.(K), value.(V)) }`: it asserts the
key to `K`, then the value to `V` (both without the comma-ok form), and calls
the visitor `f` on them.  The visitor is a function on a state `σ` that
returns whether to go on and the new state. -/
def Smap.rangeFunc (KT : GoType Dyn K) (VT : GoType Dyn V) (f : K → V → σ → Bool × σ) :
    Any Dyn → Any Dyn → σ → Except Panic (Bool × σ) :=
  fun key value s =>
    match KT.mustAssert key with
    | .error p => .error p
    | .ok k =>
      match VT.mustAssert value with
      | .error p => .error p
      | .ok v => .ok (f k v s)

/-- The method `Range`: `m.Map.Range` called with the function literal
`Smap.rangeFunc`. -/
def Smap.Range (KT : GoType Dyn K) (VT : GoType Dyn V) (o : IterOrder Dyn) (m : Smap Dyn K V)
    (f : K → V → σ → Bool × σ) (s : σ) : RangeResult σ :=
  m.Map.Range o (Smap.rangeFunc KT VT f) s

/-- A series of `Set` calls, applied from left to right. -/
def Smap.setAll (KT : GoType Dyn K) (VT : GoType Dyn V) (m : Smap Dyn K V) (ops : List (K × V)) :
    Smap Dyn K V :=
  ops.foldl (fun m kv => m.Set KT VT kv.1 kv.2) m

/-- A visitor that also records the arguments of each of its invocations, in
order, next to its own state. -/
def traced (f : K → V → σ → Bool × σ) : K → V → σ × List (K × V) → Bool × (σ × List (K × V)) :=
  fun k v st => ((f k v st.1).1, ((f k v st.1).2, st.2 ++ [(k, v)]))

/-- The arguments the visitor of `Range` receives for a cell: the key asserted
to `K` and the value asserted to `V`, when both assertions hold. -/
def decodeCell (KT : GoType Dyn K) (VT : GoType Dyn V) (e : Any Dyn × Any Dyn) : Option (K × V) :=
  match KT.assert e.1, VT.assert e.2 with
  | some k, some v => some (k, v)
  | _, _ => none

end Methods

/-- The order that visits the cells as stored. -/
def storedOrder (Dyn : Type) : IterOrder Dyn := ⟨fun l => l, fun l => List.Perm.refl l⟩

/-- The order that visits the cells last stored first. -/
def reverseOrder (Dyn : Type) : IterOrder Dyn := ⟨List.reverse, List.reverse_perm⟩

/-! ## Lemmas on the embedded map -/

section Lemmas

variable {Dyn K V σ : Type}

theorem GoType.toAny_inj {T : Type} (G : GoType Dyn T) {a b : T} (h : G.toAny a = G.toAny b) :
    a = b := by
  cases hb : G.toAny b with
  | none =>
    rw [hb] at h
    rw [G.toAny_nil a h, G.toAny_nil b hb]
  | some d =>
    rw [hb] at h
    have h1 := G.assert_toAny a d h
    have h2 := G.assert_toAny b d hb
    rw [h1] at h2
    exact Option.some.inj h2

theorem rangeLoop_count (l : List (Any Dyn × Any Dyn)) (n : Nat) :
    rangeLoop (fun _ _ n => (.ok (true, n + 1) : Except Panic (Bool × Nat))) l n
      = .completed (n + l.length) := by
  induction l generalizing n with
  | nil => simp [rangeLoop]
  | cons e rest ih =>
    simp only [rangeLoop, ih, List.length_cons]
    congr 1
    omega

theorem order_singleton (o : IterOrder Dyn) (e : Any Dyn × Any Dyn) : o.order [e] = [e] :=
  List.perm_singleton.1 (o.perm [e])

theorem rangeLoop_single_panic (f : Any Dyn → Any Dyn → σ → Except Panic (Bool × σ))
    (e : Any Dyn × Any Dyn) (s : σ) (p : Panic) (h : f e.1 e.2 s = .error p) :
    rangeLoop f [e] s = .panicked p s := by
  simp [rangeLoop, h]

theorem Len_eq_length (o : IterOrder Dyn) (m : Smap Dyn K V) :
    m.Len o = .ok m.Map.entries.length := by
  simp [Smap.Len, SyncMap.Range, rangeLoop_count, (o.perm m.Map.entries).length_eq]

variable [DecidableEq Dyn]

theorem find_storeEntries_same (key value : Any Dyn) (l : List (Any Dyn × Any Dyn)) :
    (storeEntries key value l).find? (fun e => decide (e.1 = key)) = some (key, value) := by
  induction l with
  | nil => simp [storeEntries]
  | cons e rest ih =>
    by_cases h : e.1 = key
    · simp [storeEntries, h]
    · simp [storeEntries, h, ih]

theorem find_storeEntries_other (key value key1 : Any Dyn) (hne : key1 ≠ key)
    (l : List (Any Dyn × Any Dyn)) :
    (storeEntries key value l).find? (fun e => decide (e.1 = key1))
      = l.find? (fun e => decide (e.1 = key1)) := by
  induction l with
  | nil => simp [storeEntries, Ne.symm hne]
  | cons e rest ih =>
    by_cases h : e.1 = key
    · have h1 : ¬ e.1 = key1 := fun h2 => hne (h2.symm.trans h)
      simp [storeEntries, h, h1, Ne.symm hne]
    · rw [storeEntries, if_neg h]
      by_cases h1 : e.1 = key1
      · simp [h1]
      · simp [h1, ih]

theorem Load_Store_same (m : SyncMap Dyn) (key value : Any Dyn) :
    (m.Store key value).Load key = (value, true) := by
  simp [SyncMap.Load, SyncMap.Store, find_storeEntries_same]

theorem Load_Store_other (m : SyncMap Dyn) (key value key1 : Any Dyn) (hne : key1 ≠ key) :
    (m.Store key value).Load key1 = m.Load key1 := by
  simp [SyncMap.Load, SyncMap.Store, find_storeEntries_other key value key1 hne]

theorem keys_storeEntries (key value : Any Dyn) (l : List (Any Dyn × Any Dyn)) :
    (storeEntries key value l).map Prod.fst
      = if key ∈ l.map Prod.fst then l.map Prod.fst else l.map Prod.fst ++ [key] := by
  induction l with
  | nil => simp [storeEntries]
  | cons e rest ih =>
    by_cases h : e.1 = key
    · simp [storeEntries, h]
    · have h1 : ¬ key = e.1 := fun h2 => h h2.symm
      by_cases h2 : key ∈ rest.map Prod.fst
      · rw [if_pos h2] at ih
        have h3 : key ∈ (e :: rest).map Prod.fst := by
          rw [List.map_cons]
          exact List.mem_cons_of_mem _ h2
        rw [if_pos h3]
        simp [storeEntries, h, ih]
      · rw [if_neg h2] at ih
        have h3 : ¬ key ∈ (e :: rest).map Prod.fst := by
          rw [List.map_cons, List.mem_cons]
          intro h4
          cases h4 with
          | inl h5 => exact h1 h5
          | inr h5 => exact h2 h5
        rw [if_neg h3]
        simp [storeEntries, h, ih]

theorem length_storeEntries (key value : Any Dyn) (l : List (Any Dyn × Any Dyn)) :
    (storeEntries key value l).length
      = if key ∈ l.map Prod.fst then l.length else l.length + 1 := by
  have h := congrArg List.length (keys_storeEntries key value l)
  rw [List.length_map] at h
  rw [h]
  by_cases h1 : key ∈ l.map Prod.fst
  · rw [if_pos h1, if_pos h1, List.length_map]
  · rw [if_neg h1, if_neg h1, List.length_append, List.length_map, List.length_singleton]

theorem nodup_keys_storeEntries (key value : Any Dyn) (l : List (Any Dyn × Any Dyn))
    (h : (l.map Prod.fst).Nodup) : ((storeEntries key value l).map Prod.fst).Nodup := by
  rw [keys_storeEntries]
  by_cases h1 : key ∈ l.map Prod.fst
  · rw [if_pos h1]
    exact h
  · rw [if_neg h1]
    exact List.Nodup.append h (List.nodup_singleton key) (by
      intro a ha hb
      rw [List.mem_singleton] at hb
      exact h1 (hb ▸ ha))

theorem mem_keys_storeEntries (key value x : Any Dyn) (l : List (Any Dyn × Any Dyn)) :
    x ∈ (storeEntries key value l).map Prod.fst ↔ x ∈ l.map Prod.fst ∨ x = key := by
  rw [keys_storeEntries]
  by_cases h1 : key ∈ l.map Prod.fst
  · rw [if_pos h1]
    constructor
    · intro h
      exact Or.inl h
    · intro h
      cases h with
      | inl h2 => exact h2
      | inr h2 => exact h2 ▸ h1
  · rw [if_neg h1, List.mem_append, List.mem_singleton]

theorem Get_Set_same (KT : GoType Dyn K) (VT : GoType Dyn V) (m : Smap Dyn K V) (k : K) (v : V) :
    (m.Set KT VT k v).Get KT VT k = .ok (v, (VT.toAny v).isSome) := by
  simp only [Smap.Get, Smap.Set, Load_Store_same]
  cases hv : VT.toAny v with
  | none => simp [VT.assert_nil, VT.toAny_nil v hv]
  | some d => simp [VT.assert_toAny v d hv]

theorem Get_Set_other (KT : GoType Dyn K) (VT : GoType Dyn V) (m : Smap Dyn K V) (k k1 : K)
    (v : V) (hne : k1 ≠ k) : (m.Set KT VT k v).Get KT VT k1 = m.Get KT VT k1 := by
  have h : KT.toAny k1 ≠ KT.toAny k := fun h1 => hne (KT.toAny_inj h1)
  simp only [Smap.Get, Smap.Set, Load_Store_other _ _ _ _ h]

theorem Get_New (KT : GoType Dyn K) (VT : GoType Dyn V) (k : K) :
    (New : Smap Dyn K V).Get KT VT k = .ok (VT.zero, false) := by
  simp [Smap.Get, New, SyncMap.Load]

theorem setAll_append (KT : GoType Dyn K) (VT : GoType Dyn V) (m : Smap Dyn K V)
    (ops : List (K × V)) (k : K) (v : V) :
    m.setAll KT VT (ops ++ [(k, v)]) = (m.setAll KT VT ops).Set KT VT k v := by
  simp [Smap.setAll, List.foldl_append]

theorem Get_setAll_absent (KT : GoType Dyn K) (VT : GoType Dyn V) (ops : List (K × V))
    (m : Smap Dyn K V) (k : K) (h : k ∉ ops.map Prod.fst) :
    (m.setAll KT VT ops).Get KT VT k = m.Get KT VT k := by
  induction ops generalizing m with
  | nil => rfl
  | cons op rest ih =>
    rw [List.map_cons, List.mem_cons, not_or] at h
    have h1 : (m.setAll KT VT (op :: rest)) = (m.Set KT VT op.1 op.2).setAll KT VT rest := rfl
    rw [h1, ih _ h.2, Get_Set_other KT VT m op.1 k op.2 h.1]

theorem nodup_keys_setAll (KT : GoType Dyn K) (VT : GoType Dyn V) (ops : List (K × V))
    (m : Smap Dyn K V) (h : (m.Map.entries.map Prod.fst).Nodup) :
    ((m.setAll KT VT ops).Map.entries.map Prod.fst).Nodup := by
  induction ops generalizing m with
  | nil => exact h
  | cons op rest ih =>
    exact ih (m.Set KT VT op.1 op.2) (nodup_keys_storeEntries _ _ _ h)

theorem mem_keys_setAll (KT : GoType Dyn K) (VT : GoType Dyn V) (ops : List (K × V))
    (m : Smap Dyn K V) (x : Any Dyn) :
    x ∈ (m.setAll KT VT ops).Map.entries.map Prod.fst
      ↔ x ∈ m.Map.entries.map Prod.fst ∨ x ∈ (ops.map Prod.fst).map KT.toAny := by
  induction ops generalizing m with
  | nil => simp [Smap.setAll]
  | cons op rest ih =>
    have h1 : (m.setAll KT VT (op :: rest)) = (m.Set KT VT op.1 op.2).setAll KT VT rest := rfl
    rw [h1, ih, Smap.Set, SyncMap.Store, mem_keys_storeEntries]
    simp only [List.map_cons, List.mem_cons]
    tauto

theorem toAny_mem_keys_setAll_New (KT : GoType Dyn K) (VT : GoType Dyn V) (ops : List (K × V))
    (k : K) :
    KT.toAny k ∈ ((New : Smap Dyn K V).setAll KT VT ops).Map.entries.map Prod.fst
      ↔ k ∈ ops.map Prod.fst := by
  rw [mem_keys_setAll]
  have hinj : Function.Injective KT.toAny := fun _ _ h => KT.toAny_inj h
  simp [New, hinj.eq_iff]

theorem length_setAll_New [DecidableEq K] (KT : GoType Dyn K) (VT : GoType Dyn V)
    (ops : List (K × V)) :
    ((New : Smap Dyn K V).setAll KT VT ops).Map.entries.length
      = (ops.map Prod.fst).dedup.length := by
  have hinj : Function.Injective KT.toAny := fun _ _ h => KT.toAny_inj h
  have hnd := nodup_keys_setAll KT VT ops (New : Smap Dyn K V) (by simp [New])
  have hperm : (((New : Smap Dyn K V).setAll KT VT ops).Map.entries.map Prod.fst).Perm
      (((ops.map Prod.fst).dedup).map KT.toAny) := by
    rw [List.perm_ext_iff_of_nodup hnd ((List.nodup_dedup _).map hinj)]
    intro x
    rw [mem_keys_setAll]
    simp [New]
  have := hperm.length_eq
  simpa using this

/-! ### The visitor's trace -/

omit [DecidableEq Dyn] in
theorem rangeFunc_of_decode (KT : GoType Dyn K) (VT : GoType Dyn V) (f : K → V → σ → Bool × σ)
    (e : Any Dyn × Any Dyn) (k : K) (v : V) (s : σ) (h : decodeCell KT VT e = some (k, v)) :
    Smap.rangeFunc KT VT f e.1 e.2 s = .ok (f k v s) := by
  unfold decodeCell at h
  cases hk : KT.assert e.1 with
  | none => simp [hk] at h
  | some k1 =>
    cases hv : VT.assert e.2 with
    | none => simp [hk, hv] at h
    | some v1 =>
      simp [hk, hv] at h
      simp [Smap.rangeFunc, GoType.mustAssert, hk, hv, h.1, h.2]

omit [DecidableEq Dyn] in
theorem rangeFunc_of_not_decode (KT : GoType Dyn K) (VT : GoType Dyn V)
    (f : K → V → σ → Bool × σ) (e : Any Dyn × Any Dyn) (s : σ)
    (h : decodeCell KT VT e = none) :
    Smap.rangeFunc KT VT f e.1 e.2 s = .error .interfaceConversion := by
  unfold decodeCell at h
  cases hk : KT.assert e.1 with
  | none => simp [Smap.rangeFunc, GoType.mustAssert, hk]
  | some k1 =>
    cases hv : VT.assert e.2 with
    | none => simp [Smap.rangeFunc, GoType.mustAssert, hk, hv]
    | some v1 => simp [hk, hv] at h

omit [DecidableEq Dyn] in
theorem decodeCell_eq_some_iff (KT : GoType Dyn K) (VT : GoType Dyn V) (e : Any Dyn × Any Dyn)
    (k : K) (v : V) :
    decodeCell KT VT e = some (k, v)
      ↔ e = (KT.toAny k, VT.toAny v) ∧ KT.toAny k ≠ none ∧ VT.toAny v ≠ none := by
  obtain ⟨x, y⟩ := e
  constructor
  · intro h
    unfold decodeCell at h
    cases x with
    | none => simp [KT.assert_nil] at h
    | some dx =>
      cases y with
      | none =>
        cases hk : KT.assert (some dx) <;> simp [hk, VT.assert_nil] at h
      | some dy =>
        cases hk : KT.assert (some dx) with
        | none => simp [hk] at h
        | some k1 =>
          cases hv : VT.assert (some dy) with
          | none => simp [hk, hv] at h
          | some v1 =>
            simp [hk, hv] at h
            have h1 := KT.toAny_assert dx k (h.1 ▸ hk)
            have h2 := VT.toAny_assert dy v (h.2 ▸ hv)
            simp [h1, h2]
  · rintro ⟨he, hk, hv⟩
    obtain ⟨dx, hdx⟩ := Option.ne_none_iff_exists'.1 hk
    obtain ⟨dy, hdy⟩ := Option.ne_none_iff_exists'.1 hv
    cases he
    simp [decodeCell, hdx, hdy, KT.assert_toAny k dx hdx, VT.assert_toAny v dy hdy]

omit [DecidableEq Dyn] in
/-- With a visitor that always returns true, over cells that all decode, the
loop completes and the visitor is invoked on every cell, in visiting order. -/
theorem rangeLoop_trace_all (KT : GoType Dyn K) (VT : GoType Dyn V) (f : K → V → σ → Bool × σ)
    (htrue : ∀ k v s, (f k v s).1 = true) (es : List (Any Dyn × Any Dyn))
    (hty : ∀ e ∈ es, decodeCell KT VT e ≠ none) (s : σ) (log : List (K × V)) :
    ∃ s1, rangeLoop (Smap.rangeFunc KT VT (traced f)) es (s, log)
      = .completed (s1, log ++ es.filterMap (decodeCell KT VT)) := by
  induction es generalizing s log with
  | nil => exact ⟨s, by simp [rangeLoop]⟩
  | cons e rest ih =>
    obtain ⟨⟨k, v⟩, hkv⟩ := Option.ne_none_iff_exists'.1 (hty e (List.mem_cons_self _ _))
    obtain ⟨s1, hs1⟩ := ih (fun e1 h1 => hty e1 (List.mem_cons_of_mem _ h1)) (f k v s).2
      (log ++ [(k, v)])
    refine ⟨s1, ?_⟩
    rw [rangeLoop, rangeFunc_of_decode KT VT (traced f) e k v (s, log) hkv]
    simp only [traced, htrue]
    rw [hs1, List.filterMap_cons, hkv]
    simp

omit [DecidableEq Dyn] in
/-- Over cells that all decode, the loop completes normally for every visitor. -/
theorem rangeLoop_completes (KT : GoType Dyn K) (VT : GoType Dyn V) (f : K → V → σ → Bool × σ)
    (es : List (Any Dyn × Any Dyn)) (hty : ∀ e ∈ es, decodeCell KT VT e ≠ none) (s : σ) :
    ∃ s1, rangeLoop (Smap.rangeFunc KT VT f) es s = .completed s1 := by
  induction es generalizing s with
  | nil => exact ⟨s, by simp [rangeLoop]⟩
  | cons e rest ih =>
    obtain ⟨⟨k, v⟩, hkv⟩ := Option.ne_none_iff_exists'.1 (hty e (List.mem_cons_self _ _))
    rw [rangeLoop, rangeFunc_of_decode KT VT f e k v s hkv]
    cases hb : (f k v s).1 with
    | true =>
      obtain ⟨s1, hs1⟩ := ih (fun e1 h1 => hty e1 (List.mem_cons_of_mem _ h1)) (f k v s).2
      refine ⟨s1, ?_⟩
      rw [← hs1]
      have : f k v s = (true, (f k v s).2) := by rw [← hb]
      rw [this]
    | false =>
      refine ⟨(f k v s).2, ?_⟩
      have : f k v s = (false, (f k v s).2) := by rw [← hb]
      rw [this]

omit [DecidableEq Dyn] in
/-- Every invocation the loop adds to the trace is the decoding of a cell. -/
theorem rangeLoop_trace_sub (KT : GoType Dyn K) (VT : GoType Dyn V) (f : K → V → σ → Bool × σ)
    (es : List (Any Dyn × Any Dyn)) (s : σ) (log : List (K × V)) :
    ∀ x ∈ (rangeLoop (Smap.rangeFunc KT VT (traced f)) es (s, log)).state.2,
      x ∈ log ∨ x ∈ es.filterMap (decodeCell KT VT) := by
  induction es generalizing s log with
  | nil =>
    intro x hx
    exact Or.inl (by simpa [rangeLoop, RangeResult.state] using hx)
  | cons e rest ih =>
    intro x hx
    cases hd : decodeCell KT VT e with
    | none =>
      rw [rangeLoop, rangeFunc_of_not_decode KT VT (traced f) e (s, log) hd] at hx
      exact Or.inl (by simpa [RangeResult.state] using hx)
    | some kv =>
      obtain ⟨k, v⟩ := kv
      rw [rangeLoop, rangeFunc_of_decode KT VT (traced f) e k v (s, log) hd] at hx
      rw [List.filterMap_cons, hd]
      cases hb : (f k v s).1 with
      | true =>
        simp only [traced, hb] at hx
        cases ih _ _ x hx with
        | inl h1 =>
          rw [List.mem_append, List.mem_singleton] at h1
          cases h1 with
          | inl h2 => exact Or.inl h2
          | inr h2 => exact Or.inr (h2 ▸ List.mem_cons_self _ _)
        | inr h1 => exact Or.inr (List.mem_cons_of_mem _ h1)
      | false =>
        simp only [traced, hb, RangeResult.state] at hx
        rw [List.mem_append, List.mem_singleton] at hx
        cases hx with
        | inl h2 => exact Or.inl h2
        | inr h2 => exact Or.inr (h2 ▸ List.mem_cons_self _ _)

omit [DecidableEq Dyn] in
/-- A visitor that returns false in its starting state is invoked at most
once, on any list of cells. -/
theorem rangeLoop_false_at_most_once (KT : GoType Dyn K) (VT : GoType Dyn V)
    (f : K → V → σ → Bool × σ) (s : σ) (hfalse : ∀ k v, (f k v s).1 = false)
    (es : List (Any Dyn × Any Dyn)) :
    (rangeLoop (Smap.rangeFunc KT VT (traced f)) es (s, [])).state.2.length ≤ 1 := by
  cases es with
  | nil => simp [rangeLoop, RangeResult.state]
  | cons e rest =>
    cases hd : decodeCell KT VT e with
    | none =>
      rw [rangeLoop, rangeFunc_of_not_decode KT VT (traced f) e (s, []) hd]
      simp [RangeResult.state]
    | some kv =>
      obtain ⟨k, v⟩ := kv
      rw [rangeLoop, rangeFunc_of_decode KT VT (traced f) e k v (s, []) hd]
      simp [traced, hfalse, RangeResult.state]

/-! ### Cells and `Get` -/

theorem mem_storeEntries (key value : Any Dyn) (l : List (Any Dyn × Any Dyn))
    (e : Any Dyn × Any Dyn) (h : e ∈ storeEntries key value l) : e ∈ l ∨ e = (key, value) := by
  induction l with
  | nil =>
    simp only [storeEntries, List.mem_singleton] at h
    exact Or.inr h
  | cons e1 rest ih =>
    by_cases h1 : e1.1 = key
    · rw [storeEntries, if_pos h1, List.mem_cons] at h
      cases h with
      | inl h2 => exact Or.inr h2
      | inr h2 => exact Or.inl (List.mem_cons_of_mem _ h2)
    · rw [storeEntries, if_neg h1, List.mem_cons] at h
      cases h with
      | inl h2 => exact Or.inl (h2 ▸ List.mem_cons_self _ _)
      | inr h2 =>
        cases ih h2 with
        | inl h3 => exact Or.inl (List.mem_cons_of_mem _ h3)
        | inr h3 => exact Or.inr h3

theorem mem_entries_setAll (KT : GoType Dyn K) (VT : GoType Dyn V) (ops : List (K × V))
    (m : Smap Dyn K V) (e : Any Dyn × Any Dyn) (h : e ∈ (m.setAll KT VT ops).Map.entries) :
    e ∈ m.Map.entries ∨ ∃ op ∈ ops, e = (KT.toAny op.1, VT.toAny op.2) := by
  induction ops generalizing m with
  | nil => exact Or.inl h
  | cons op rest ih =>
    cases ih (m.Set KT VT op.1 op.2) h with
    | inl h1 =>
      cases mem_storeEntries _ _ _ _ h1 with
      | inl h2 => exact Or.inl h2
      | inr h2 => exact Or.inr ⟨op, List.mem_cons_self _ _, h2⟩
    | inr h1 =>
      obtain ⟨op1, hop1, he⟩ := h1
      exact Or.inr ⟨op1, List.mem_cons_of_mem _ hop1, he⟩

theorem find_eq_some_of_nodup_keys (l : List (Any Dyn × Any Dyn)) (hnd : (l.map Prod.fst).Nodup)
    (e : Any Dyn × Any Dyn) (he : e ∈ l) :
    l.find? (fun e1 => decide (e1.1 = e.1)) = some e := by
  induction l with
  | nil => cases he
  | cons e1 rest ih =>
    rw [List.map_cons, List.nodup_cons] at hnd
    rw [List.mem_cons] at he
    cases he with
    | inl h1 => simp [h1]
    | inr h1 =>
      have h2 : ¬ e1.1 = e.1 := fun h3 => hnd.1 (h3 ▸ List.mem_map_of_mem Prod.fst h1)
      simp [h2, ih hnd.2 h1]

/-- In a map whose cells have distinct keys, `Get(k)` returns `(v, true)`
exactly when the cell of `k` holds the non-nil `any` made from `v`. -/
theorem Get_found_iff (KT : GoType Dyn K) (VT : GoType Dyn V) (m : Smap Dyn K V)
    (hnd : (m.Map.entries.map Prod.fst).Nodup) (k : K) (v : V) :
    m.Get KT VT k = .ok (v, true)
      ↔ (KT.toAny k, VT.toAny v) ∈ m.Map.entries ∧ VT.toAny v ≠ none := by
  constructor
  · intro h
    unfold Smap.Get SyncMap.Load at h
    cases hf : m.Map.entries.find? (fun e => decide (e.1 = KT.toAny k)) with
    | none => simp [hf] at h
    | some e =>
      have hmem := List.mem_of_find?_eq_some hf
      have hkey : e.1 = KT.toAny k := by simpa using List.find?_some hf
      simp only [hf] at h
      cases hx : e.2 with
      | none => simp [hx, VT.assert_nil] at h
      | some d =>
        cases ha : VT.assert (some d) with
        | none => simp [hx, ha] at h
        | some v1 =>
          simp [hx, ha] at h
          have h1 := VT.toAny_assert d v (h ▸ ha)
          refine ⟨?_, by simp [h1]⟩
          have he : e = (KT.toAny k, VT.toAny v) := by
            rw [h1, ← hx, ← hkey]
          exact he ▸ hmem
  · rintro ⟨hmem, hv⟩
    obtain ⟨d, hd⟩ := Option.ne_none_iff_exists'.1 hv
    have hf := find_eq_some_of_nodup_keys _ hnd _ hmem
    simp only [Smap.Get, SyncMap.Load, hf, hd, VT.assert_toAny v d hd]

theorem nodup_keys_setAll_New (KT : GoType Dyn K) (VT : GoType Dyn V) (ops : List (K × V)) :
    (((New : Smap Dyn K V).setAll KT VT ops).Map.entries.map Prod.fst).Nodup :=
  nodup_keys_setAll KT VT ops New (by simp [New])

theorem decode_setAll_New (KT : GoType Dyn K) (VT : GoType Dyn V) (ops : List (K × V))
    (hk : ∀ op ∈ ops, KT.toAny op.1 ≠ none) (hv : ∀ op ∈ ops, VT.toAny op.2 ≠ none) :
    ∀ e ∈ ((New : Smap Dyn K V).setAll KT VT ops).Map.entries, decodeCell KT VT e ≠ none := by
  intro e he
  cases mem_entries_setAll KT VT ops New e he with
  | inl h => simp [New] at h
  | inr h =>
    obtain ⟨op, hop, heq⟩ := h
    have := (decodeCell_eq_some_iff KT VT e op.1 op.2).2 ⟨heq, hk op hop, hv op hop⟩
    simp [this]

/-- In a map whose cells have distinct keys, the decoding of a cell is a pair
`(k, v)` for which `Get(k)` returns `(v, true)`, and every such pair with a
non-nil key is the decoding of a cell. -/
theorem mem_decode_iff_Get (KT : GoType Dyn K) (VT : GoType Dyn V) (m : Smap Dyn K V)
    (hnd : (m.Map.entries.map Prod.fst).Nodup) (es : List (Any Dyn × Any Dyn))
    (hes : es.Perm m.Map.entries) (k : K) (v : V) :
    (k, v) ∈ es.filterMap (decodeCell KT VT)
      ↔ m.Get KT VT k = .ok (v, true) ∧ KT.toAny k ≠ none := by
  rw [List.mem_filterMap, Get_found_iff KT VT m hnd]
  constructor
  · rintro ⟨e, he, hd⟩
    obtain ⟨h1, h2, h3⟩ := (decodeCell_eq_some_iff KT VT e k v).1 hd
    exact ⟨⟨h1 ▸ hes.mem_iff.1 he, h3⟩, h2⟩
  · rintro ⟨⟨h1, h3⟩, h2⟩
    exact ⟨_, hes.mem_iff.2 h1, (decodeCell_eq_some_iff KT VT _ k v).2 ⟨rfl, h2, h3⟩⟩

omit [DecidableEq Dyn] in
theorem keys_filterMap_decode (KT : GoType Dyn K) (VT : GoType Dyn V)
    (es : List (Any Dyn × Any Dyn)) (hty : ∀ e ∈ es, decodeCell KT VT e ≠ none) :
    ((es.filterMap (decodeCell KT VT)).map Prod.fst).map KT.toAny = es.map Prod.fst := by
  induction es with
  | nil => rfl
  | cons e rest ih =>
    obtain ⟨⟨k, v⟩, hkv⟩ := Option.ne_none_iff_exists'.1 (hty e (List.mem_cons_self _ _))
    have he := ((decodeCell_eq_some_iff KT VT e k v).1 hkv).1
    rw [List.filterMap_cons, hkv]
    simp only [List.map_cons]
    rw [ih (fun e1 h1 => hty e1 (List.mem_cons_of_mem _ h1)), he]

end Lemmas

/-! ## Where every operation behaves as specified

The operations part ways with the specification only on nil interface values.
The theorems of this section hold for every key and value type; those on
`Range` ask that no key and no value that was set converts to the nil `any`,
which is so for every non-interface type. -/

section Sound

variable {Dyn K V σ : Type} [DecidableEq Dyn]

/-- After two `Set` calls on one key, `Get` returns the second value, and
reports it found exactly when that value is not a nil interface value. -/
theorem Get_Set_Set (KT : GoType Dyn K) (VT : GoType Dyn V) (m : Smap Dyn K V) (k : K)
    (v1 v2 : V) :
    ((m.Set KT VT k v1).Set KT VT k v2).Get KT VT k = .ok (v2, (VT.toAny v2).isSome) :=
  Get_Set_same KT VT (m.Set KT VT k v1) k v2

/-- `Get` returns normally in every state of the store. -/
theorem Get_returns (KT : GoType Dyn K) (VT : GoType Dyn V) (m : Smap Dyn K V) (k : K) :
    ∃ r, m.Get KT VT k = .ok r := by
  unfold Smap.Get
  split
  · split
    · exact ⟨_, rfl⟩
    · exact ⟨_, rfl⟩
  · exact ⟨_, rfl⟩

omit [DecidableEq Dyn] in
/-- `Len` returns normally in every state of the store. -/
theorem Len_returns (o : IterOrder Dyn) (m : Smap Dyn K V) : ∃ n, m.Len o = .ok n :=
  ⟨_, Len_eq_length o m⟩

/-- When no key and no value that was set is a nil interface value, `Range`
completes normally, for every visitor and every iteration order. -/
theorem Range_completes (KT : GoType Dyn K) (VT : GoType Dyn V) (o : IterOrder Dyn)
    (ops : List (K × V)) (hk : ∀ op ∈ ops, KT.toAny op.1 ≠ none)
    (hv : ∀ op ∈ ops, VT.toAny op.2 ≠ none) (f : K → V → σ → Bool × σ) (s : σ) :
    ∃ s1, ((New : Smap Dyn K V).setAll KT VT ops).Range KT VT o f s = .completed s1 :=
  rangeLoop_completes KT VT f _
    (fun e he => decode_setAll_New KT VT ops hk hv e ((o.perm _).mem_iff.1 he)) s

/-- When no key and no value that was set is a nil interface value, `Range`
with a visitor that always returns true completes, and its trace holds each
distinct key that was set exactly once, paired with the value `Get` returns
for it, and nothing else. -/
theorem Range_visits_each_key_once [DecidableEq K] (KT : GoType Dyn K) (VT : GoType Dyn V)
    (o : IterOrder Dyn) (ops : List (K × V)) (hk : ∀ op ∈ ops, KT.toAny op.1 ≠ none)
    (hv : ∀ op ∈ ops, VT.toAny op.2 ≠ none) (f : K → V → σ → Bool × σ)
    (htrue : ∀ k v s, (f k v s).1 = true) (s : σ) :
    ∃ s1 log,
      ((New : Smap Dyn K V).setAll KT VT ops).Range KT VT o (traced f) (s, [])
        = .completed (s1, log) ∧
      (log.map Prod.fst).Nodup ∧
      (∀ k v, (k, v) ∈ log
        ↔ ((New : Smap Dyn K V).setAll KT VT ops).Get KT VT k = .ok (v, true)) ∧
      log.length = (ops.map Prod.fst).dedup.length := by
  have hnd := nodup_keys_setAll_New (V := V) KT VT ops
  have hperm := o.perm ((New : Smap Dyn K V).setAll KT VT ops).Map.entries
  have hty : ∀ e ∈ o.order ((New : Smap Dyn K V).setAll KT VT ops).Map.entries,
      decodeCell KT VT e ≠ none :=
    fun e he => decode_setAll_New KT VT ops hk hv e (hperm.mem_iff.1 he)
  obtain ⟨s1, hs1⟩ := rangeLoop_trace_all KT VT f htrue _ hty s []
  have hkeys := keys_filterMap_decode KT VT _ hty
  refine ⟨s1, _, by simpa [Smap.Range, SyncMap.Range] using hs1, ?_, ?_, ?_⟩
  · apply List.Nodup.of_map KT.toAny
    rw [hkeys]
    exact (hperm.map Prod.fst).nodup_iff.2 hnd
  · intro k v
    rw [mem_decode_iff_Get KT VT _ hnd _ hperm]
    constructor
    · exact fun h => h.1
    · intro h
      refine ⟨h, ?_⟩
      have hmem := ((Get_found_iff KT VT _ hnd k v).1 h).1
      cases mem_entries_setAll KT VT ops New _ hmem with
      | inl h1 => simp [New] at h1
      | inr h1 =>
        obtain ⟨op, hop, heq⟩ := h1
        have h2 : KT.toAny k = KT.toAny op.1 := congrArg Prod.fst heq
        rw [h2]
        exact hk op hop
  · have h1 := congrArg List.length hkeys
    rw [List.length_map, List.length_map, List.length_map] at h1
    rw [h1, hperm.length_eq, length_setAll_New]

/-- Every pair the visitor of `Range` is invoked on is a pair `Get` confirms:
for `(k, v)` in the trace, `Get(k)` returns `(v, true)`. -/
theorem Range_trace_agrees_with_Get (KT : GoType Dyn K) (VT : GoType Dyn V) (o : IterOrder Dyn)
    (ops : List (K × V)) (f : K → V → σ → Bool × σ) (s : σ) (k : K) (v : V)
    (h : (k, v) ∈ (((New : Smap Dyn K V).setAll KT VT ops).Range KT VT o (traced f)
      (s, [])).state.2) :
    ((New : Smap Dyn K V).setAll KT VT ops).Get KT VT k = .ok (v, true) := by
  cases rangeLoop_trace_sub KT VT f _ s [] (k, v) h with
  | inl h1 => cases h1
  | inr h1 =>
    exact ((mem_decode_iff_Get KT VT _ (nodup_keys_setAll_New KT VT ops) _
      (o.perm _) k v).1 h1).1

omit [DecidableEq Dyn] in
/-- A visitor that returns false in its starting state is invoked at most once
by `Range`, in every state of the store and every iteration order. -/
theorem Range_stops_after_false (KT : GoType Dyn K) (VT : GoType Dyn V) (o : IterOrder Dyn)
    (m : Smap Dyn K V) (f : K → V → σ → Bool × σ) (s : σ)
    (hfalse : ∀ k v, (f k v s).1 = false) :
    (m.Range KT VT o (traced f) (s, [])).state.2.length ≤ 1 :=
  rangeLoop_false_at_most_once KT VT f s hfalse _

/-- When no key and no value that was set is a nil interface value and at
least one `Set` was made, a visitor that returns false in its starting state is
invoked exactly once by `Range`, which then completes. -/
theorem Range_false_exactly_once (KT : GoType Dyn K) (VT : GoType Dyn V) (o : IterOrder Dyn)
    (ops : List (K × V)) (hops : ops ≠ []) (hk : ∀ op ∈ ops, KT.toAny op.1 ≠ none)
    (hv : ∀ op ∈ ops, VT.toAny op.2 ≠ none) (f : K → V → σ → Bool × σ) (s : σ)
    (hfalse : ∀ k v, (f k v s).1 = false) :
    ∃ s1 kv, ((New : Smap Dyn K V).setAll KT VT ops).Range KT VT o (traced f) (s, [])
      = .completed (s1, [kv]) := by
  have hperm := o.perm ((New : Smap Dyn K V).setAll KT VT ops).Map.entries
  obtain ⟨op, hop⟩ := List.exists_mem_of_ne_nil ops hops
  have hkey := (toAny_mem_keys_setAll_New KT VT ops op.1).2 (List.mem_map_of_mem Prod.fst hop)
  obtain ⟨e0, he0, -⟩ := List.mem_map.1 hkey
  have he1 := hperm.mem_iff.2 he0
  simp only [Smap.Range, SyncMap.Range]
  cases hes : o.order ((New : Smap Dyn K V).setAll KT VT ops).Map.entries with
  | nil => simp [hes] at he1
  | cons e rest =>
    have hmem : e ∈ ((New : Smap Dyn K V).setAll KT VT ops).Map.entries :=
      hperm.mem_iff.1 (hes ▸ List.mem_cons_self _ _)
    obtain ⟨⟨k, v⟩, hkv⟩ := Option.ne_none_iff_exists'.1
      (decode_setAll_New KT VT ops hk hv e hmem)
    refine ⟨(f k v s).2, (k, v), ?_⟩
    rw [rangeLoop, rangeFunc_of_decode KT VT (traced f) e k v (s, []) hkv]
    simp [traced, hfalse]

end Sound


/-! ## The claims -/

section Claims

variable {Dyn K V σ : Type} [DecidableEq Dyn]

/-- C2: on the map returned by `New`, `Get(k)` returns the zero value of `V`
and false for every key `k`; and after any finite series of `Set` calls on a
fresh map, `Get(k)` returns the zero value and false for every key `k` that is
not among the keys that were set. -/
theorem Get_absent_key (KT : GoType Dyn K) (VT : GoType Dyn V) (ops : List (K × V)) (k : K) :
    (New : Smap Dyn K V).Get KT VT k = .ok (VT.zero, false) ∧
    (k ∉ ops.map Prod.fst →
      ((New : Smap Dyn K V).setAll KT VT ops).Get KT VT k = .ok (VT.zero, false)) := by
  refine ⟨Get_New KT VT k, ?_⟩
  intro h
  rw [Get_setAll_absent KT VT ops New k h]
  exact Get_New KT VT k

theorem Get_absent_key_witness :
    (New : Smap Val String Int).Get goString goInt "c" = .ok (0, false) ∧
    "c" ∉ [("a", (1 : Int)), ("b", 2)].map Prod.fst ∧
    ((New : Smap Val String Int).setAll goString goInt [("a", 1), ("b", 2)]).Get
      goString goInt "c" = .ok (0, false) :=
  ⟨(Get_absent_key goString goInt [("a", 1), ("b", 2)] "c").1, by decide,
    (Get_absent_key goString goInt [("a", 1), ("b", 2)] "c").2 (by decide)⟩

/-- C5: after a finite series of `Set` calls on a fresh map, `Len()` is the
number of distinct keys of the series, whatever the iteration order; so `N`
calls on `N` distinct keys give `N`; a further `Set` on a key of the series
leaves `Len()` unchanged, and a further `Set` on a key that is not in the
series makes it one larger. -/
theorem Len_counts_distinct_keys [DecidableEq K] (KT : GoType Dyn K) (VT : GoType Dyn V)
    (o : IterOrder Dyn) (ops : List (K × V)) :
    ((New : Smap Dyn K V).setAll KT VT ops).Len o = .ok (ops.map Prod.fst).dedup.length ∧
    ((ops.map Prod.fst).Nodup →
      ((New : Smap Dyn K V).setAll KT VT ops).Len o = .ok ops.length) ∧
    (∀ k v, k ∈ ops.map Prod.fst →
      (((New : Smap Dyn K V).setAll KT VT ops).Set KT VT k v).Len o
        = ((New : Smap Dyn K V).setAll KT VT ops).Len o) ∧
    (∀ k v, k ∉ ops.map Prod.fst →
      (((New : Smap Dyn K V).setAll KT VT ops).Set KT VT k v).Len o
        = .ok ((ops.map Prod.fst).dedup.length + 1)) := by
  have hlen : ((New : Smap Dyn K V).setAll KT VT ops).Len o
      = .ok (ops.map Prod.fst).dedup.length := by
    rw [Len_eq_length, length_setAll_New]
  refine ⟨hlen, ?_, ?_, ?_⟩
  · intro hnd
    rw [hlen, hnd.dedup, List.length_map]
  · intro k v hk
    rw [Len_eq_length, Len_eq_length, Smap.Set, SyncMap.Store, length_storeEntries,
      if_pos ((toAny_mem_keys_setAll_New KT VT ops k).2 hk)]
  · intro k v hk
    rw [Len_eq_length, Smap.Set, SyncMap.Store, length_storeEntries,
      if_neg (fun h => hk ((toAny_mem_keys_setAll_New KT VT ops k).1 h)), length_setAll_New]

theorem Len_counts_distinct_keys_witness :
    (((New : Smap Val String Int).setAll goString goInt [("a", 1), ("b", 2), ("a", 3)]).Len
        (reverseOrder Val) = .ok 2) ∧
    (([("a", (1 : Int)), ("b", 2)].map Prod.fst).Nodup ∧
      ((New : Smap Val String Int).setAll goString goInt [("a", 1), ("b", 2)]).Len
        (reverseOrder Val) = .ok 2) ∧
    ("a" ∈ [("a", (1 : Int)), ("b", 2), ("a", 3)].map Prod.fst ∧
      (((New : Smap Val String Int).setAll goString goInt [("a", 1), ("b", 2), ("a", 3)]).Set
          goString goInt "a" 7).Len (reverseOrder Val)
        = ((New : Smap Val String Int).setAll goString goInt
            [("a", 1), ("b", 2), ("a", 3)]).Len (reverseOrder Val)) ∧
    ("c" ∉ [("a", (1 : Int)), ("b", 2), ("a", 3)].map Prod.fst ∧
      (((New : Smap Val String Int).setAll goString goInt [("a", 1), ("b", 2), ("a", 3)]).Set
          goString goInt "c" 7).Len (reverseOrder Val) = .ok 3) :=
  ⟨(Len_counts_distinct_keys goString goInt (reverseOrder Val)
      [("a", 1), ("b", 2), ("a", 3)]).1,
    ⟨by decide,
      (Len_counts_distinct_keys goString goInt (reverseOrder Val)
        [("a", 1), ("b", 2)]).2.1 (by decide)⟩,
    ⟨by decide,
      (Len_counts_distinct_keys goString goInt (reverseOrder Val)
        [("a", 1), ("b", 2), ("a", 3)]).2.2.1 "a" 7 (by decide)⟩,
    ⟨by decide,
      (Len_counts_distinct_keys goString goInt (reverseOrder Val)
        [("a", 1), ("b", 2), ("a", 3)]).2.2.2 "c" 7 (by decide)⟩⟩

/-- C7: in every state of the underlying store in which the cell of key `k`
holds a non-nil value that does not assert to `V`, `Get(k)` returns the zero
value of `V` and false, and does not panic. -/
theorem Get_type_guard (KT : GoType Dyn K) (VT : GoType Dyn V) (m : Smap Dyn K V) (k : K)
    (d : Dyn) (hcell : m.Map.Load (KT.toAny k) = (some d, true))
    (hbad : VT.assert (some d) = none) : m.Get KT VT k = .ok (VT.zero, false) := by
  simp [Smap.Get, hcell, hbad]

theorem Get_type_guard_witness :
    (⟨(New : Smap Val String Int).Map.Store (some (.str "a")) (some (.str "x"))⟩ :
        Smap Val String Int).Map.Load (goString.toAny "a") = (some (.str "x"), true) ∧
    goInt.assert (some (.str "x")) = none ∧
    (⟨(New : Smap Val String Int).Map.Store (some (.str "a")) (some (.str "x"))⟩ :
        Smap Val String Int).Get goString goInt "a" = .ok (0, false) :=
  ⟨by decide, by decide,
    Get_type_guard goString goInt
      ⟨(New : Smap Val String Int).Map.Store (some (.str "a")) (some (.str "x"))⟩ "a"
      (.str "x") (by decide) (by decide)⟩

/-- C9: `Set` touches only its own key: in every state `m`, for keys `k` and
`k1` with `k1 ≠ k` and every value `v`, `Get(k1)` after `Set(k, v)` returns
what `Get(k1)` returned before, value and found flag alike. -/
theorem Set_frame (KT : GoType Dyn K) (VT : GoType Dyn V) (m : Smap Dyn K V) (k k1 : K) (v : V)
    (hne : k1 ≠ k) : (m.Set KT VT k v).Get KT VT k1 = m.Get KT VT k1 :=
  Get_Set_other KT VT m k k1 v hne

theorem Set_frame_witness :
    "a" ≠ "b" ∧
    (((New : Smap Val String Int).Set goString goInt "a" 1).Set goString goInt "b" 2).Get
        goString goInt "a"
      = ((New : Smap Val String Int).Set goString goInt "a" 1).Get goString goInt "a" :=
  ⟨by decide,
    Set_frame goString goInt ((New : Smap Val String Int).Set goString goInt "a" 1) "b" "a" 2
      (by decide)⟩

/-- C1 (failing input): with `V = any`, after `Set("a", 1)` and then
`Set("a", nil)` the call `Get("a")` returns `(nil, false)`: the stored nil
interface value fails the type assertion in `Get`, so the key is reported as
not found. -/
theorem Get_after_Set_nil_not_found :
    ((((New : Smap Val String (Any Val)).Set goString goAny "a" (some (.int 1))).Set
        goString goAny "a" none).Get goString goAny "a") = .ok (none, false) := by
  decide

/-- C3 (failing input): with `V = any`, after `Set("a", nil)` every call of
`Range` panics with a failed interface conversion, in every iteration order
and for every visitor, before the visitor is called. -/
theorem Range_panics_after_Set_nil (o : IterOrder Val) (f : String → Any Val → σ → Bool × σ)
    (s : σ) :
    ((New : Smap Val String (Any Val)).Set goString goAny "a" none).Range goString goAny o f s
      = .panicked .interfaceConversion s := by
  simp only [Smap.Range, SyncMap.Range, Smap.Set, SyncMap.Store, New, storeEntries,
    order_singleton]
  exact rangeLoop_single_panic _ _ s _ rfl

/-- C4 (failing input): with `V = any`, after `Set("a", 1)` and `Set("b", nil)`
a `Range` whose visitor always returns true does not visit both keys: it
panics at the cell of `"b"`, after one invocation when `"a"` is visited first
and after none when `"b"` is visited first. -/
theorem Range_skips_nil_entry :
    ((New : Smap Val String (Any Val)).setAll goString goAny
        [("a", some (.int 1)), ("b", none)]).Range goString goAny (storedOrder Val)
        (traced (fun _ _ (u : Unit) => (true, u))) ((), [])
      = .panicked .interfaceConversion ((), [("a", some (.int 1))]) ∧
    ((New : Smap Val String (Any Val)).setAll goString goAny
        [("a", some (.int 1)), ("b", none)]).Range goString goAny (reverseOrder Val)
        (traced (fun _ _ (u : Unit) => (true, u))) ((), [])
      = .panicked .interfaceConversion ((), []) := by
  decide

/-- C6 (failing input): with `V = any`, on the one-entry map made by
`Set("a", nil)`, a `Range` whose visitor returns false panics before the
visitor is invoked at all: the trace of invocations is empty. -/
theorem Range_false_visitor_never_called (o : IterOrder Val) :
    ((New : Smap Val String (Any Val)).Set goString goAny "a" none).Range goString goAny o
        (traced (fun _ _ (u : Unit) => (false, u))) ((), [])
      = .panicked .interfaceConversion ((), []) := by
  simp only [Smap.Range, SyncMap.Range, Smap.Set, SyncMap.Store, New, storeEntries,
    order_singleton]
  exact rangeLoop_single_panic _ _ _ _ rfl

/-- C10 (failing input): with `V = any`, after `Set("a", nil)` the call `Len()`
returns 1 in every iteration order, while `Get` reports found = false for
every key: `Len` and `Get` disagree on whether the entry exists. -/
theorem Len_Get_disagree_on_nil (o : IterOrder Val) (k : String) :
    ((New : Smap Val String (Any Val)).Set goString goAny "a" none).Len o = .ok 1 ∧
    ((New : Smap Val String (Any Val)).Set goString goAny "a" none).Get goString goAny k
      = .ok (none, false) := by
  refine ⟨by rw [Len_eq_length]; rfl, ?_⟩
  by_cases hk : k = "a"
  · rw [hk, Get_Set_same]
    rfl
  · rw [Get_Set_other goString goAny New "a" k none hk]
    exact Get_New goString goAny k

end Claims

end smap
